import Mathlib

/-!
Verification of the WWDM-Import table engine (src/wbe_odm/odm.py) and the
geo-processing script (src/notebooks/geo_test.py) against its specification.

Shallow embedding conventions:
* A pandas cell value is a `Value`: missing data (NaN/NaT/None) is `Value.na`,
  text is `Value.str`, numbers are `Value.num` (rationals stand in for floats;
  none of the verified properties depend on float rounding), timestamps are
  `Value.time` over integer time units.
* A DataFrame row is an association list from column name to `Value`; a
  DataFrame is its column-name list plus its row list.  Row order is the
  pandas row order, column order the pandas column order.
* In-place pandas mutation is modelled by explicit state passing: a Python
  method that mutates a frame becomes a Lean function returning the new frame.
-/

inductive Value where
  | na
  | str (s : String)
  | num (q : ℚ)
  | time (t : ℤ)
deriving DecidableEq, Repr

/-- Row of a DataFrame: association list column-name → value. -/
abbrev Row := List (String × Value)

/-- Reading a cell: first binding of the column wins (pandas columns are
unique in all frames handled here); a missing column reads as missing data. -/
def rowGet : Row → String → Value
  | [], _ => Value.na
  | (k, v) :: ps, c => if c = k then v else rowGet ps c

def rowHasCol : Row → String → Bool
  | [], _ => false
  | (k, _) :: ps, c => k = c || rowHasCol ps c

/-- In-place overwrite of the value bound to an existing column name. -/
def rowSetAux : Row → String → Value → Row
  | [], _, _ => []
  | (k, w) :: ps, c, v =>
      if k = c then (k, v) :: rowSetAux ps c v else (k, w) :: rowSetAux ps c v

/-- Writing a cell: replaces the value under an existing column name, or
appends a new column at the end of the row (pandas `df[c] = v` semantics). -/
def rowSet (r : Row) (c : String) (v : Value) : Row :=
  if rowHasCol r c then rowSetAux r c v else r ++ [(c, v)]

structure DF where
  cols : List String
  rows : List Row
deriving DecidableEq, Repr

/-- `df.empty` in pandas for the frames handled here: the stored tables always
carry their schema columns, so emptiness is the absence of rows. -/
def DF.isEmptyDF (df : DF) : Bool := df.rows.isEmpty

/-- Removal of duplicates keeping the first occurrence, as
`drop_duplicates(keep="first")` and `Series.unique()` do in pandas: each
element is kept, and its later duplicates are screened out of the recursive
result. -/
def dedupFirst {α : Type} [DecidableEq α] : List α → List α
  | [] => []
  | x :: xs => x :: (dedupFirst xs).filter (fun y => y ≠ x)

/-- Adding (or overwriting) one column computed row-wise from the current row,
as `df[name] = ...` / `df.loc[filt, name] = ...`: when the name is already a
column the values are overwritten in place, otherwise the column is appended
on the right. -/
def addCol (df : DF) (name : String) (f : Row → Value) : DF :=
  { cols := if name ∈ df.cols then df.cols else df.cols ++ [name],
    rows := df.rows.map (fun r => rowSet r name (f r)) }

/-- `df.drop(columns=names)`: the named columns disappear from the column
list and from every row. -/
def dropCols (df : DF) (names : List String) : DF :=
  { cols := df.cols.filter (fun c => c ∉ names),
    rows := df.rows.map (fun r => r.filter (fun p => p.1 ∉ names)) }

/-- Substring containment on strings, the semantics of Python `pat in s`
(and of `Series.str.contains` with a plain-text pattern). -/
def subList {α : Type} [DecidableEq α] : List α → List α → Bool
  | _, [] => true
  | [], _ :: _ => false
  | x :: xs, pat =>
      (List.isPrefixOf pat (x :: xs)) || subList xs pat

def strContains (s pat : String) : Bool :=
  subList s.data pat.data

/-- Splitting a character list on a separator character, the semantics of
Python split(";") — adjacent separators produce empty pieces. -/
def splitChar (sep : Char) : List Char → List (List Char)
  | [] => [[]]
  | c :: cs =>
      let rest := splitChar sep cs
      if c = sep then [] :: rest
      else match rest with
           | [] => [[c]]
           | p :: ps => (c :: p) :: ps

def strSplitOnChar (sep : Char) (s : String) : List String :=
  (splitChar sep s.data).map (fun l => ⟨l⟩)

/-- The whitespace set stripped by Python str.strip(). -/
def isStripSpace (c : Char) : Bool :=
  c = ' ' || c = '\t' || c = '\n' || c = '\x0d' || c = '\x0b' || c = '\x0c'

/-- Python str.strip(): leading and trailing whitespace removed. -/
def strStrip (s : String) : String :=
  ⟨((s.data.dropWhile isStripSpace).reverse.dropWhile isStripSpace).reverse⟩

/-- Python str.replace (and Series.str.replace on a plain pattern):
non-overlapping left-to-right substring replacement.  The skip counter keeps
the recursion structural while consuming a match. -/
def replaceScan (pat rep : List Char) : List Char → ℕ → List Char
  | [], _ => []
  | _ :: cs, k + 1 => replaceScan pat rep cs k
  | c :: cs, 0 =>
      if pat ≠ [] && pat.isPrefixOf (c :: cs) then
        rep ++ replaceScan pat rep cs (pat.length - 1)
      else c :: replaceScan pat rep cs 0

def strReplace (s pat rep : String) : String :=
  ⟨replaceScan pat.data rep.data s.data 0⟩

/-- `str(x)` as pandas `astype(str)` applies it elementwise: missing data
prints as the literal string nan. -/
def valueToString : Value → String
  | Value.na => "nan"
  | Value.str s => s
  | Value.num q => toString q
  | Value.time t => toString t

/- ----------------------------------------------------------------
   Pivot engine: Odm.clean_qualifier_columns and Odm.widen
   (src/wbe_odm/odm.py lines 85-135)
----------------------------------------------------------------- -/

/-- One cell of `clean_qualifier_columns`: missing or empty qualifier values
become the literal unknown-(qualifier) tag; path separators in string values
are replaced; non-string, non-missing values fall to missing under the
pandas `.str` accessor (`.str.replace` yields NaN on non-strings). -/
def cleanQualifierValue (q : String) (v : Value) : Value :=
  match v with
  | Value.na => Value.str ("unknown-" ++ q)
  | Value.str s =>
      if s = "" then Value.str ("unknown-" ++ q)
      else Value.str (strReplace s "/" "-")
  | _ => Value.na

/-- The extra treatment of the qualityFlag qualifier: a substring replacement
of True (Series.str.replace) followed by a whole-value replacement of False
(Series.replace, which only rewrites cells exactly equal to False). -/
def qualityFlagValue (v : Value) : Value :=
  match v with
  | Value.str s =>
      let s1 := strReplace s "True" "quality-issue"
      Value.str (if s1 = "False" then "no-quality-issue" else s1)
  | v => v

/-- `Odm.clean_qualifier_columns`: applied column by column over the
qualifier list; the column set of the frame is unchanged. -/
def cleanQualifierColumns (df : DF) (qualifiers : List String) : DF :=
  { cols := df.cols,
    rows := df.rows.map (fun r =>
      qualifiers.foldl (fun r q =>
        let v := cleanQualifierValue q (rowGet r q)
        rowSet r q (if q = "qualityFlag" then qualityFlagValue v else v)) r) }

/-- `df[qualifier].astype(str)` for every qualifier column. -/
def astypeStrCols (df : DF) (qualifiers : List String) : DF :=
  { cols := df.cols,
    rows := df.rows.map (fun r =>
      qualifiers.foldl (fun r q =>
        rowSet r q (Value.str (valueToString (rowGet r q)))) r) }

/-- The per-row combination key: qualifier values joined positionally by an
underscore (`df[qualifiers].agg("_".join, axis=1)`). -/
def comboString (r : Row) (qualifiers : List String) : String :=
  String.intercalate "_" (qualifiers.map (fun q => valueToString (rowGet r q)))

/-- The frame just before the wide columns are generated: qualifiers cleaned,
stringified, and the temporary col_qualifiers column appended. -/
def widenPrep (df : DF) (qualifiers : List String) : DF :=
  addCol (astypeStrCols (cleanQualifierColumns df qualifiers) qualifiers)
    "col_qualifiers" (fun r => Value.str (comboString r qualifiers))

/-- The distinct combination keys in order of first appearance
(`df["col_qualifiers"].unique()`). -/
def widenCombos (df : DF) (qualifiers : List String) : List String :=
  dedupFirst ((widenPrep df qualifiers).rows.map
    (fun r => valueToString (rowGet r "col_qualifiers")))

/-- Name of a generated wide column: combination key, underscore, feature. -/
def wideName (cf : String × String) : String := cf.1 ++ "_" ++ cf.2

/-- The (combination key, feature) pairs in the nesting order of the source
loops: outer loop over distinct keys, inner loop over features. -/
def comboPairs (combos features : List String) : List (String × String) :=
  combos.flatMap (fun c => features.map (fun f => (c, f)))

/-- One generated wide column: NaN off the matching rows, the current value
of the feature column on rows whose combination key matches.  Reads go to the
current state of the frame, exactly as the successive in-place assignments of
the source do. -/
def wideFun (cf : String × String) (r : Row) : Value :=
  if rowGet r "col_qualifiers" = Value.str cf.1 then rowGet r cf.2 else Value.na

def widenAdds (pairs : List (String × String)) (df : DF) : DF :=
  pairs.foldl (fun acc cf => addCol acc (wideName cf) (wideFun cf)) df

/-- `Odm.widen`: the long-to-wide pivot.  Empty input is returned unchanged;
otherwise qualifiers are cleaned and joined into a combination key, one column
per (distinct key, feature) pair is written, and the feature, qualifier and
temporary key columns are dropped. -/
def widen (df : DF) (features qualifiers : List String) : DF :=
  if df.rows.isEmpty then df
  else
    dropCols
      (widenAdds (comboPairs (widenCombos df qualifiers) features)
        (widenPrep df qualifiers))
      (features ++ qualifiers ++ ["col_qualifiers"])

/- ----------------------------------------------------------------
   Odm._parse_sample (src/wbe_odm/odm.py lines 221-248):
   fan-out of delimited siteID lists over extra rows.
----------------------------------------------------------------- -/

/-- The siteID field as a string.  The source evaluates the Python test
(";" in sites), which requires a string; non-string values are out of the
table contract and are modelled as delimiter-free. -/
def siteStr (r : Row) : String :=
  match rowGet r "siteID" with
  | Value.str s => s
  | _ => ""

/-- The set of distinct site identifiers of a delimited field, in order of
first appearance: split on the delimiter, strip whitespace, deduplicate
(the source builds a Python set; its iteration order is unspecified, so any
fixed enumeration of the set is a faithful determinization). -/
def splitSiteIds (s : String) : List String :=
  dedupFirst ((strSplitOnChar ';' s).map strStrip)

def rowHasMultiSite (r : Row) : Bool := strContains (siteStr r) ";"

/-- The identifier the source's set.pop() hands to the original row. -/
def poppedSiteId (s : String) : String := (splitSiteIds s).headD ""

/-- The original row after the loop body: rows with a delimited siteID keep
exactly one of the identifiers, other rows are untouched. -/
def expandKeep (r : Row) : Row :=
  if rowHasMultiSite r then
    rowSet r "siteID" (Value.str (poppedSiteId (siteStr r)))
  else r

/-- The synthesized rows for one original row: one full copy per remaining
identifier, differing from the original only in siteID. -/
def expandExtras (r : Row) : List Row :=
  if rowHasMultiSite r then
    ((splitSiteIds (siteStr r)).tailD []).map
      (fun i => rowSet r "siteID" (Value.str i))
  else []

/-- The row list produced by the _parse_sample loop: the loop iterates over a
copy of the original rows and appends every synthesized row at the end of the
frame, so the result is the edited originals followed by the extras in
iteration order. -/
def parseSampleRows (rows : List Row) : List Row :=
  rows.map expandKeep ++ rows.flatMap expandExtras

/-- Renaming every column of a row with a table tag, as `df.add_prefix`. -/
def tagRow (tag : String) (r : Row) : Row :=
  r.map (fun p => (tag ++ p.1, p.2))

def tagCols (tag : String) (df : DF) : DF :=
  { cols := df.cols.map (fun c => tag ++ c),
    rows := df.rows.map (tagRow tag) }

/-- `Odm._parse_sample`: expand multi-site rows, then namespace the columns
with the Sample tag. -/
def parseSample (df : DF) : DF :=
  if df.rows.isEmpty then df
  else tagCols "Sample." { cols := df.cols, rows := parseSampleRows df.rows }

/-- The extra rows contributed by one original row: one per distinct site
identifier beyond the first. -/
def extraSiteCount (r : Row) : ℕ :=
  if rowHasMultiSite r then (splitSiteIds (siteStr r)).length - 1 else 0

/- ----------------------------------------------------------------
   The state of the stored sample table after _parse_sample
   (for the frame/read-only property of combine_per_sample).

   In the source, the loop variable df aliases self.sample until the first
   `df = df.append(...)` rebinds it to a fresh frame.  Every earlier
   assignment `df["siteID"].iloc[i] = site_ids.pop()` therefore lands in the
   stored table itself: each delimited row up to and including the first row
   with at least two distinct identifiers has its siteID overwritten with the
   popped identifier; once an append has happened the store is never touched
   again.
----------------------------------------------------------------- -/

/-- True when the row triggers an append (at least one identifier besides the
popped one), which rebinds df away from the stored frame. -/
def rowFansOut (r : Row) : Bool :=
  rowHasMultiSite r && 2 ≤ (splitSiteIds (siteStr r)).length

def storeRowsAfterParseSample : List Row → List Row
  | [] => []
  | r :: rs =>
      if rowHasMultiSite r then
        let r2 := rowSet r "siteID" (Value.str (poppedSiteId (siteStr r)))
        if rowFansOut r then r2 :: rs
        else r2 :: storeRowsAfterParseSample rs
      else r :: storeRowsAfterParseSample rs

/- ----------------------------------------------------------------
   Table store: Odm.__init__ / Odm.append_from
   (src/wbe_odm/odm.py lines 26-59 and 288-317)
----------------------------------------------------------------- -/

inductive TableName where
  | sample | wwMeasure | site | siteMeasure | reporter
  | lab | assayMethod | instrument | polygon | cphd
deriving DecidableEq, Repr

/-- The ten canonical tables of the store (the attribute dictionary of an
Odm instance). -/
def OdmStore := TableName → DF

/-- A data source handed to append_from: either another Odm instance, whose
tables are taken on trust, or an external mapper carrying its ten tables and
the verdict of its validates() predicate. -/
inductive Source where
  | odm (tables : OdmStore)
  | mapper (tables : OdmStore) (valid : Bool)

def Source.tables : Source → OdmStore
  | Source.odm t => t
  | Source.mapper t _ => t

/-- The validation verdict append_from acts on:
`True if isinstance(mapper, Odm) else mapper.validates()`. -/
def Source.validatesOf : Source → Bool
  | Source.odm _ => true
  | Source.mapper _ v => v

/-- Re-expression of a row on a fixed column list, as pandas aligns rows when
two frames are concatenated: missing columns fill with NaN. -/
def alignRow (cols : List String) (r : Row) : Row :=
  cols.map (fun c => (c, rowGet r c))

/-- Union of two column lists in pandas append order: left columns first,
then the unseen right columns. -/
def unionCols (a b : List String) : List String :=
  a ++ b.filter (fun c => c ∉ a)

/-- Per-table body of the append_from loop: an empty stored table is replaced
by the incoming one; an empty incoming table is skipped; otherwise the frames
are concatenated and exact duplicate rows dropped keeping the first
occurrence. -/
def mergeTable (cur new : DF) : DF :=
  if cur.rows.isEmpty then new
  else if new.rows.isEmpty then cur
  else
    let cols := unionCols cur.cols new.cols
    { cols := cols,
      rows := dedupFirst ((cur.rows ++ new.rows).map (alignRow cols)) }

/-- `Odm.append_from`, with the mutation made explicit: the call returns the
raised error message (if any) together with the final state of the store.
Validation runs before the merge loop; an invalid source raises with the
store untouched. -/
def appendFromRun (store : OdmStore) (src : Source) :
    Option String × OdmStore :=
  if src.validatesOf = false then
    (some "mapper object contains invalid data", store)
  else
    (none, fun t => mergeTable (store t) (src.tables t))

/-- Structural facts every pandas DataFrame satisfies and that the
association-list model must assume explicitly: column names are unique and
every row is expressed exactly on the column list. -/
def WellFormedDF (df : DF) : Prop :=
  df.cols.Nodup ∧ ∀ r ∈ df.rows, alignRow df.cols r = r

/- ----------------------------------------------------------------
   combine_sample_site_measure (src/wbe_odm/odm.py lines 448-488):
   the date-interval left join done through SQLite.
----------------------------------------------------------------- -/

/-- The join predicate of the SQL query: SiteMeasure.dateTime BETWEEN
Sample.dateTimeStart AND Sample.dateTimeEnd.  SQL BETWEEN is inclusive on
both ends, and any NULL operand makes the predicate non-matching. -/
def smBetween (m r : Row) : Bool :=
  match rowGet m "SiteMeasure.dateTime",
        rowGet r "Sample.dateTimeStart", rowGet r "Sample.dateTimeEnd" with
  | Value.time t, Value.time a, Value.time b => decide (a ≤ t) && decide (t ≤ b)
  | _, _, _ => false

/-- The output rows a single sample row contributes to the left join: one row
per matching site measure, or the sample row padded with NULLs when nothing
matches. -/
def smJoinRow (smCols : List String) (smRows : List Row) (r : Row) : List Row :=
  let ms := smRows.filter (fun m => smBetween m r)
  if ms.isEmpty then [r ++ smCols.map (fun c => (c, Value.na))]
  else ms.map (fun m => r ++ m)

/-- `combine_sample_site_measure`: empty-side passthrough, then the SQLite
left join of samples with site measures on the inclusive date interval. -/
def combine_sample_site_measure (sample sm : DF) : DF :=
  if sample.rows.isEmpty && sm.rows.isEmpty then sample
  else if sample.rows.isEmpty then sm
  else if sm.rows.isEmpty then sample
  else
    { cols := sample.cols ++ sm.cols,
      rows := sample.rows.flatMap (smJoinRow sm.cols sm.rows) }

/- ----------------------------------------------------------------
   geo_test.py: plot timestamps, collection-method choice, severity.

   Timestamps are modelled as integer day numbers with day 0 a Monday
   (so weekday d = d % 7 matches Python datetime.weekday, Monday = 0).
   The fixed date 2020-01-01 of get_last_sunday is a Wednesday; with the
   Monday 2020-01-06 at day 0 it is day -5.
----------------------------------------------------------------- -/

/-- One row of the per-sample combined table, restricted to the fields the
geo script reads. -/
structure GSample where
  collection : String
  dateTimeStart : Option ℤ
  dateTimeEnd : Option ℤ
  dateTime : Option ℤ
deriving DecidableEq, Repr

/-- `get_midpoint_time` on present dates: date1 + (date2 - date1)/2. -/
def getMidpointTime (a b : ℤ) : ℤ := a + (b - a) / 2

/-- `get_plot_datetime`, per row.  The column is first all-NaT, then written
by three successive masked assignments whose order decides overlaps: grab
rows take dateTime, then rows with both interval ends take the midpoint
(overwriting grab rows that carry both), then rows with only an end take the
end (again overwriting). -/
def getPlotDate (s : GSample) : Option ℤ :=
  let p1 : Option ℤ :=
    if strContains s.collection "grb" then s.dateTime else none
  let p2 : Option ℤ :=
    match s.dateTimeStart, s.dateTimeEnd with
    | some a, some b => some (getMidpointTime a b)
    | _, _ => p1
  match s.dateTimeStart, s.dateTimeEnd with
  | none, some b => some b
  | _, _ => p2

/-- `get_latest_sample_date`: NaT for an empty frame; otherwise the frame is
sorted by plot date ascending, which places NaT rows at the end, and the last
row is read off — so any undated sample makes the result NaT, and otherwise
the maximum date is returned.  This is the computation of the non-raising
calls: when get_cm_to_plot hands it a non-empty proper-subset slice of the
samples frame, the column assignment inside get_plot_datetime raises
SettingWithCopyError before anything is returned (see cmSliceRaises). -/
def getLatestSampleDate (dates : List (Option ℤ)) : Option ℤ :=
  if dates.isEmpty then none
  else if dates.any (fun d => d.isNone) then none
  else (dates.filterMap id).max?

/-- Sample count and latest plot date for one collection method: the samples
are filtered by substring containment of the method tag in the collection
field. -/
def cmStats (samples : List GSample) (cm : String) : ℕ × Option ℤ :=
  let ofType := samples.filter (fun s => strContains s.collection cm)
  (ofType.length, getLatestSampleDate (ofType.map getPlotDate))

structure CmRow where
  cmType : String
  n : ℕ
  last : Option ℤ
deriving DecidableEq, Repr

/-- The ascending order used by sort_values on the last_date column: NaT is
placed after every date (na_position last). -/
def lastLE (a b : Option ℤ) : Bool :=
  match a, b with
  | _, none => true
  | none, some _ => false
  | some x, some y => decide (x ≤ y)

def insertByLast (x : CmRow) : List CmRow → List CmRow
  | [] => [x]
  | y :: ys => if lastLE x.last y.last then x :: y :: ys
               else y :: insertByLast x ys

/-- Sort of the three method rows by last date ascending.  pandas sort_values
uses an unstable sort, so the order among rows with equal keys is
unspecified; an insertion sort is one faithful determinization, and the
proved properties do not depend on the tie order. -/
def sortByLast : List CmRow → List CmRow
  | [] => []
  | x :: xs => insertByLast x (sortByLast xs)

def possibleCms : List String := ["ps", "cp", "grb"]

def cmRowOf (samples : List GSample) (cm : String) : CmRow :=
  { cmType := cm, n := (cmStats samples cm).1, last := (cmStats samples cm).2 }

/-- The three-row frame of get_cm_to_plot: one row per method, carrying the
sample count and the latest date. -/
def cmRows (samples : List GSample) : List CmRow :=
  possibleCms.map (cmRowOf samples)

/-- After `types.sort_values("last_date")` and
`types.loc[~types["last_date"].isna()]`: sorted, undated methods dropped. -/
def cmDated (samples : List GSample) : List CmRow :=
  (sortByLast (cmRows samples)).filter (fun r => r.last.isSome)

/-- The threshold actually applied: dropped to zero when no dated method
has enough samples. -/
def cmThresh (samples : List GSample) (threshN : ℕ) : ℕ :=
  if ((cmDated samples).filter (fun r => threshN ≤ r.n)).length = 0 then 0
  else threshN

def cmFinal (samples : List GSample) (threshN : ℕ) : List CmRow :=
  (cmDated samples).filter (fun r => cmThresh samples threshN ≤ r.n)

/-- The selection computation of `get_cm_to_plot`: build one row per method
with its count and latest date, sort ascending by date, discard undated
methods, drop the count threshold when no dated method meets it, keep the
methods meeting the (possibly dropped) threshold and return the last — most
recent — one (types.iloc[-1]); None when nothing remains.  A real call only
reaches this computation when no per-method slice raises (see cmSliceRaises
and getCmToPlotRun below); on such inputs this is exactly what the source
computes. -/
def getCmToPlot (samples : List GSample) (threshN : ℕ) : Option String :=
  match (cmFinal samples threshN).getLast? with
  | none => none
  | some r => some r.cmType

/-- Whether one method's slice makes the stats loop of get_cm_to_plot raise.
`samples.loc[samples["Sample.collection"].str.contains(cm)]` is an un-copied
slice of the live samples frame; when it is non-empty (so
get_latest_sample_date does not return NaT early) and a proper subset of the
rows (pandas then flags the slice with a live parent reference), the first
masked assignment of get_plot_datetime — df["Sample.plotDate"] = pd.NaT —
is a setitem on a copy-flagged frame, and the module-level
pd.options.mode.chained_assignment = "raise" of odm.py (in force once
geo_test.py imports wbe_odm.odm) turns it into a SettingWithCopyError.  An
empty slice returns early, and a slice of all rows carries no copy flag, so
neither raises. -/
def cmSliceRaises (samples : List GSample) (cm : String) : Bool :=
  let ofType := samples.filter (fun s => strContains s.collection cm)
  !ofType.isEmpty && ofType.length != samples.length

/-- A get_cm_to_plot call raises iff some method's slice does: any input
mixing collection methods has a non-empty proper slice, so the stats loop
raises and the selection is never reached. -/
def getCmToPlotRaises (samples : List GSample) : Bool :=
  possibleCms.any (cmSliceRaises samples)

/-- The observable behavior of a get_cm_to_plot call: the raised error, if
any, paired with the returned selection when the call completes. -/
def getCmToPlotRun (samples : List GSample) (threshN : ℕ) :
    Option String × Option (Option String) :=
  if getCmToPlotRaises samples then (some "SettingWithCopyError", none)
  else (none, some (getCmToPlot samples threshN))

/- ----------------------------------------------------------------
   geo_test.py: get_last_sunday, weekly resampling, get_n_bins, pd.cut
   and get_color_ts (lines 200-205, 252-320).
----------------------------------------------------------------- -/

/-- Day constant for pd.to_datetime("01-01-2020"), the fallback of
get_last_sunday: Wednesday 2020-01-01, day -5 of the Monday-based numbering. -/
def jan12020 : ℤ := -5

/-- `get_last_sunday` on a present date: the most recent Sunday on or before
it (weekday d = d % 7, Monday = 0, offset = (weekday - 6) % 7). -/
def lastSundayOf (d : ℤ) : ℤ := d - (d % 7 - 6) % 7

/-- `get_last_sunday` including the None fallback used for the window start. -/
def getLastSunday (d : Option ℤ) : ℤ :=
  lastSundayOf (d.getD jan12020)

/-- One sample row as seen by get_viral_timeseries after the viral columns
have been averaged into the two series: its plot date and the two measures.
(Undated rows would make get_last_sunday throw on NaT inside the source; the
pipeline only reaches this point with dated samples.) -/
structure VSample where
  plotDate : ℤ
  sars : Option ℚ
  pmmov : Option ℚ
deriving DecidableEq, Repr

/-- `normalize_by_pmmv` per row: sars / pmmov with an absent operand or a
zero denominator treated as missing (inf is replaced by NaN and NaN ratios
are dropped; a negative numerator over zero would give -inf in pandas, which
cannot arise for the nonnegative viral measures and is modelled as missing). -/
def normalizeByPmmv (sars pmmov : Option ℚ) : Option ℚ :=
  match sars, pmmov with
  | some s, some p => if p = 0 then none else some (s / p)
  | _, _ => none

def VSample.norm (s : VSample) : Option ℚ :=
  normalizeByPmmv s.sars s.pmmov

def ratMean (l : List ℚ) : ℚ := l.sum / l.length

/-- The weekly mean of the normalized ratio: `resample("W", on="last_sunday")
.mean()` groups the rows by their last_sunday (already a Sunday, and W-SUN
bins are right-closed on Sundays) and averages the non-missing ratios;
a week with no row, or only missing ratios, is missing. -/
def weeklyNorm (vs : List VSample) (w : ℤ) : Option ℚ :=
  let vals := (vs.filter (fun s => lastSundayOf s.plotDate = w)).filterMap
    VSample.norm
  if vals.isEmpty then none else some (ratMean vals)

/-- `pd.date_range(start, end, freq="W")` with a Sunday start: the Sundays
from start to stop inclusive; empty when stop < start. -/
def weekList (start stop : ℤ) : List ℤ :=
  if stop < start then []
  else (List.range ((stop - start).toNat / 7 + 1)).map
    (fun k => start + 7 * (k : ℤ))

/-- `get_n_bins`: None when the series has no defined value, the number of
defined values when below the palette size, the palette size (six COLORS
entries) otherwise. -/
def getNBins (norms : List (Option ℚ)) : Option ℕ :=
  let k := (norms.filterMap id).length
  if k = 0 then none
  else if k < 6 then some k
  else some 6

def listMin : List ℚ → ℚ
  | [] => 0
  | x :: xs => xs.foldl min x

def listMax : List ℚ → ℚ
  | [] => 0
  | x :: xs => xs.foldl max x

/-- First 1-based index of an interior bin edge at or above the value. -/
def firstBinAux : List ℚ → ℚ → ℕ → Option ℕ
  | [], _, _ => none
  | e :: es, v, k => if v ≤ e then some k else firstBinAux es v (k + 1)

/-- `pd.cut(series, n, labels=range(1, n+1))` on the defined values of the
series, with the edge arithmetic of pandas: n equal-width right-closed bins
whose n+1 edges are the linspace over [mn, mx]; when mn = mx both ends are
first padded by 0.1 percent (0.001 absolute at zero); otherwise only the
leftmost edge is lowered by 0.1 percent of the range, so the minimum falls
inside the first bin.  A value outside the padded range gets no label
(NaN). -/
def cutLabel (mn mx : ℚ) (n : ℕ) (v : ℚ) : Option ℕ :=
  if mn = mx then
    let lo : ℚ := if mn = 0 then -(1/1000) else mn - |mn| / 1000
    let hi : ℚ := if mx = 0 then 1/1000 else mx + |mx| / 1000
    let edges := (List.range n).map
      (fun i => lo + (hi - lo) * ((i : ℚ) + 1) / (n : ℚ))
    if v ≤ lo then none else firstBinAux edges v 1
  else
    let lo : ℚ := mn - (mx - mn) / 1000
    let edges := (List.range n).map
      (fun i => mn + (mx - mn) * ((i : ℚ) + 1) / (n : ℚ))
    if v ≤ lo then none else firstBinAux edges v 1

/-- The weekly target range of get_color_ts: Sundays from the anchored
Sunday of the window start (default 2021-01-01; None falls back through
get_last_sunday to 2020-01-01) to the window end (None means the current
time, `now`). -/
def colorDates (dateStart dateEnd : Option ℤ) (now : ℤ) : List ℤ :=
  weekList (getLastSunday dateStart) (dateEnd.getD now)

/-- The norm column of the merged weekly frame at one target week: missing
when no samples were plotted (build_empty_color_ts) or when the week has no
defined ratio. -/
def colorNormAt (samples : Option (List VSample)) (d : ℤ) : Option ℚ :=
  match samples with
  | none => none
  | some vs => weeklyNorm vs d

/-- `get_color_ts`.  Each target week is keyed by its Sunday (the source
formats it YYYY-MM-DD; day numbers are kept here, the formatting being
injective) and carries the severity as a string: all "0" when no week has a
defined ratio, all "1" when exactly one has, otherwise the equal-width bin
index of the week's ratio — weeks without data keep the literal "nan" that
astype(str) prints for NaN, since the final isna() rewrite runs after the
cast and matches nothing. -/
def getColorTs (samples : Option (List VSample)) (dateStart dateEnd : Option ℤ)
    (now : ℤ) : List (ℤ × String) :=
  let dates := colorDates dateStart dateEnd now
  let norms := dates.map (colorNormAt samples)
  match getNBins norms with
  | none => dates.map (fun d => (d, "0"))
  | some 1 => dates.map (fun d => (d, "1"))
  | some n =>
      let defined := norms.filterMap id
      dates.map (fun d => (d,
        match colorNormAt samples d with
        | none => "nan"
        | some v =>
            match cutLabel (listMin defined) (listMax defined) n v with
            | some k => toString k
            | none => "nan"))

/- ----------------------------------------------------------------
   Concrete tables used by counterexamples and witnesses.
----------------------------------------------------------------- -/

/-- A table on which the generated wide name a_value collides with an
existing column: qualifier value a and feature value generate a_value. -/
def widenCollisionDF : DF :=
  ⟨["a_value", "q", "value"],
   [[("a_value", Value.na), ("q", Value.str "a"), ("value", Value.num 1)]]⟩

/-- A collision-free two-row table for the widen witness. -/
def widenPlainDF : DF :=
  ⟨["sampleID", "q", "value"],
   [[("sampleID", Value.str "s1"), ("q", Value.str "x"), ("value", Value.num 1)],
    [("sampleID", Value.str "s2"), ("q", Value.str "y"), ("value", Value.num 2)]]⟩

/-- A sample row carrying two delimited site identifiers. -/
def qcRow : Row := [("sampleID", Value.str "s1"), ("siteID", Value.str "qc_1;qc_2")]

/- ----------------------------------------------------------------
   Effect of Odm.combine_per_sample on the stored tables
   (src/wbe_odm/odm.py lines 382-611).

   The parsers feeding combine_per_sample copy before transforming —
   _parse_ww_measure and _parse_site_measure pass through __remove_access
   (df.drop returns a new frame), _parse_site, _parse_polygon and
   _parse_cphd through add_prefix, and the join stages build new frames —
   with one exception: _parse_sample edits the siteID column of the frame it
   iterates over, and that frame is self.sample itself until the first
   df.append rebinds the local variable.  Hence the stored sample rows end in
   the storeRowsAfterParseSample state and every other table is untouched.
----------------------------------------------------------------- -/

def combinePerSampleStoreEffect (store : OdmStore) : OdmStore :=
  fun t =>
    match t with
    | TableName.sample =>
        { cols := (store TableName.sample).cols,
          rows := storeRowsAfterParseSample (store TableName.sample).rows }
    | t => store t

/-- A store whose sample table holds one multi-site row; every other table
is an arbitrary empty table. -/
def multiSiteStore : OdmStore :=
  fun t =>
    match t with
    | TableName.sample => ⟨["sampleID", "siteID"], [qcRow]⟩
    | _ => ⟨["x"], []⟩

/-- Sample and site-measure tables exercising the interval join at its
boundaries: the sample interval is [10, 20], and the measures sit at the two
bounds, inside, and just outside. -/
def boundarySampleDF : DF :=
  ⟨["Sample.sampleID", "Sample.dateTimeStart", "Sample.dateTimeEnd"],
   [[("Sample.sampleID", Value.str "s1"),
     ("Sample.dateTimeStart", Value.time 10),
     ("Sample.dateTimeEnd", Value.time 20)]]⟩

def boundarySmRow (t : ℤ) : Row :=
  [("SiteMeasure.dateTime", Value.time t), ("SiteMeasure.value", Value.num 1)]

def boundarySmDF : DF :=
  ⟨["SiteMeasure.dateTime", "SiteMeasure.value"],
   [boundarySmRow 10, boundarySmRow 15, boundarySmRow 20, boundarySmRow 21]⟩

/-- A tiny mapper source and starting store for the append witnesses. -/
def siteRowA : Row := [("siteID", Value.str "qc_01"), ("name", Value.str "a")]

def siteRowB : Row := [("siteID", Value.str "qc_02"), ("name", Value.str "b")]

def witnessSource : Source :=
  Source.mapper
    (fun t =>
      match t with
      | TableName.site => ⟨["siteID", "name"], [siteRowA, siteRowB]⟩
      | _ => ⟨["x"], []⟩)
    true

def invalidSource : Source :=
  Source.mapper (fun _ => ⟨["x"], []⟩) false

def witnessStore : OdmStore :=
  fun t =>
    match t with
    | TableName.site => ⟨["siteID", "name"], [siteRowA]⟩
    | _ => ⟨["y"], []⟩

/-- The collection-method example: ten composite samples whose latest plot
date is day 456 (standing for 2021-04-01) and three grab samples whose
latest is day 486 (2021-05-01). -/
def cpSampleAt (d : ℤ) : GSample := ⟨"cp", some d, some d, none⟩

def grbSampleAt (d : ℤ) : GSample := ⟨"grb", none, none, some d⟩

def cmExampleSamples : List GSample :=
  (List.range 10).map (fun k => cpSampleAt (447 + (k : ℤ)))
    ++ [grbSampleAt 480, grbSampleAt 483, grbSampleAt 486]

/-- Five samples on five consecutive Sundays (days 6, 13, 20, 27, 34) whose
normalized ratios are 1, 2, 3, 4, 5. -/
def rampSamples : List VSample :=
  [⟨6, some 1, some 1⟩, ⟨13, some 2, some 1⟩, ⟨20, some 3, some 1⟩,
   ⟨27, some 4, some 1⟩, ⟨34, some 5, some 1⟩]

/-- A single dated, defined ratio inside the window. -/
def lonelySample : VSample := ⟨13, some 3, some 1⟩

/- ----------------------------------------------------------------
   Helper lemmas on the embedding.
----------------------------------------------------------------- -/

theorem mem_dedupFirst {α : Type} [DecidableEq α] (l : List α) (a : α) :
    a ∈ dedupFirst l ↔ a ∈ l := by
  induction l using dedupFirst.induct with
  | case1 => simp [dedupFirst]
  | case2 x xs ih =>
      rw [dedupFirst]
      simp only [List.mem_cons, ih, List.mem_filter] at *
      constructor
      · rintro (h | ⟨h, _⟩)
        · exact Or.inl h
        · exact Or.inr h
      · rintro (h | h)
        · exact Or.inl h
        · by_cases hx : a = x
          · exact Or.inl hx
          · exact Or.inr ⟨h, by simpa using hx⟩

theorem dedupFirst_ne_nil {α : Type} [DecidableEq α] (l : List α)
    (h : l ≠ []) : dedupFirst l ≠ [] := by
  cases l with
  | nil => exact absurd rfl h
  | cons x xs => rw [dedupFirst]; simp

theorem addCol_rows_length (df : DF) (name : String) (f : Row → Value) :
    (addCol df name f).rows.length = df.rows.length := by
  simp [addCol]

theorem addCol_cols_of_not_mem (df : DF) (name : String) (f : Row → Value)
    (h : name ∉ df.cols) : (addCol df name f).cols = df.cols ++ [name] := by
  simp [addCol, h]

theorem widenAdds_rows_length (pairs : List (String × String)) (df : DF) :
    (widenAdds pairs df).rows.length = df.rows.length := by
  induction pairs generalizing df with
  | nil => rfl
  | cons cf cfs ih =>
      show (widenAdds cfs (addCol df (wideName cf) (wideFun cf))).rows.length
        = df.rows.length
      rw [ih, addCol_rows_length]

theorem widenAdds_cols (pairs : List (String × String)) (df : DF)
    (hfresh : ∀ cf ∈ pairs, wideName cf ∉ df.cols)
    (hnodup : (pairs.map wideName).Nodup) :
    (widenAdds pairs df).cols = df.cols ++ pairs.map wideName := by
  induction pairs generalizing df with
  | nil => simp [widenAdds]
  | cons cf cfs ih =>
      have h1 : wideName cf ∉ df.cols := hfresh cf (List.mem_cons_self cf cfs)
      rw [List.map_cons] at hnodup
      have hnd := List.nodup_cons.mp hnodup
      show (widenAdds cfs (addCol df (wideName cf) (wideFun cf))).cols
        = df.cols ++ (wideName cf :: cfs.map wideName)
      rw [ih (addCol df (wideName cf) (wideFun cf))
        (fun c hc => by
          rw [addCol_cols_of_not_mem df _ _ h1]
          simp only [List.mem_append, List.mem_singleton]
          rintro (h | h)
          · exact hfresh c (List.mem_cons_of_mem _ hc) h
          · exact hnd.1 (h ▸ List.mem_map_of_mem wideName hc))
        hnd.2]
      rw [addCol_cols_of_not_mem df _ _ h1]
      simp

theorem comboPairs_length (cs fs : List String) :
    (comboPairs cs fs).length = cs.length * fs.length := by
  induction cs with
  | nil => simp [comboPairs]
  | cons c cs ih =>
      simp only [comboPairs, List.flatMap_cons, List.length_append,
        List.length_map, List.length_cons] at *
      rw [ih]
      ring

theorem length_filter_not_mem (l sub : List String) (hl : l.Nodup)
    (hsub : sub.Nodup) (hss : ∀ x ∈ sub, x ∈ l) :
    (l.filter (fun c => c ∉ sub)).length + sub.length = l.length := by
  have hsplit := List.length_eq_length_filter_add (l := l)
    (fun c => decide (c ∈ sub))
  have hA : (l.filter (fun c => decide (c ∈ sub))).length = sub.length := by
    apply Nat.le_antisymm
    · exact List.Subperm.length_le
        (List.Nodup.subperm (hl.filter _)
          (fun x hx => of_decide_eq_true (List.mem_filter.mp hx).2))
    · exact List.Subperm.length_le
        (List.Nodup.subperm hsub
          (fun x hx => List.mem_filter.mpr ⟨hss x hx, by simpa using hx⟩))
  have : (l.filter (fun c => c ∉ sub)) =
      (l.filter (fun c => !(decide (c ∈ sub)))) := by
    apply List.filter_congr
    intro c _
    by_cases h : c ∈ sub <;> simp [h]
  rw [this]
  omega

theorem widenPrep_cols (df : DF) (qualifiers : List String)
    (h4 : "col_qualifiers" ∉ df.cols) :
    (widenPrep df qualifiers).cols = df.cols ++ ["col_qualifiers"] :=
  addCol_cols_of_not_mem (astypeStrCols (cleanQualifierColumns df qualifiers)
    qualifiers) _ _ h4

theorem widenPrep_rows_length (df : DF) (qualifiers : List String) :
    (widenPrep df qualifiers).rows.length = df.rows.length := by
  simp [widenPrep, addCol, astypeStrCols, cleanQualifierColumns]

/-- C1 (amended): for a table with distinct column names among which the
features and qualifiers appear, no input column named col_qualifiers, and
generated wide names that are pairwise distinct and collide with no input
column, widen keeps the row count, is the identity on empty input, and the
output column count obeys
columns(out) + |features| + |qualifiers| = columns(in) + |combos|·|features|
(the additive form of the claimed columns(in) − |features| − |qualifiers| +
|combos|·|features|). -/
theorem c1_widen_counts (df : DF) (features qualifiers : List String)
    (h1 : df.cols.Nodup)
    (h2 : ∀ c ∈ features ++ qualifiers, c ∈ df.cols)
    (h3 : (features ++ qualifiers).Nodup)
    (h4 : "col_qualifiers" ∉ df.cols)
    (h5 : ∀ cf ∈ comboPairs (widenCombos df qualifiers) features,
      wideName cf ∉ df.cols ∧ wideName cf ≠ "col_qualifiers")
    (h6 : ((comboPairs (widenCombos df qualifiers) features).map
      wideName).Nodup) :
    (df.rows.isEmpty = true → widen df features qualifiers = df)
    ∧ (widen df features qualifiers).rows.length = df.rows.length
    ∧ (df.rows.isEmpty = false →
        (widen df features qualifiers).cols.length + features.length
            + qualifiers.length
          = df.cols.length
            + (widenCombos df qualifiers).length * features.length) := by
  by_cases hemp : df.rows.isEmpty = true
  · refine ⟨fun _ => by simp [widen, hemp], by simp [widen, hemp], ?_⟩
    intro hne
    rw [hemp] at hne
    exact absurd hne (by simp)
  · have hne : df.rows.isEmpty = false := by
      cases h : df.rows.isEmpty
      · rfl
      · exact absurd h hemp
    have hwiden : widen df features qualifiers =
        dropCols
          (widenAdds (comboPairs (widenCombos df qualifiers) features)
            (widenPrep df qualifiers))
          (features ++ qualifiers ++ ["col_qualifiers"]) := by
      rw [widen, if_neg (by simp [hne])]
    set P := comboPairs (widenCombos df qualifiers) features with hP
    set D := features ++ qualifiers ++ ["col_qualifiers"] with hD
    have hprepcols := widenPrep_cols df qualifiers h4
    have hacols : (widenAdds P (widenPrep df qualifiers)).cols
        = (df.cols ++ ["col_qualifiers"]) ++ P.map wideName := by
      rw [← hprepcols]
      apply widenAdds_cols
      · intro cf hcf
        rw [hprepcols]
        simp only [List.mem_append, List.mem_singleton]
        rintro (h | h)
        · exact (h5 cf hcf).1 h
        · exact (h5 cf hcf).2 h
      · exact h6
    refine ⟨fun h => absurd h (by simp [hne]), ?_, fun _ => ?_⟩
    · rw [hwiden]
      show ((widenAdds P (widenPrep df qualifiers)).rows.map _).length
        = df.rows.length
      rw [List.length_map, widenAdds_rows_length, widenPrep_rows_length]
    · rw [hwiden]
      show (((widenAdds P (widenPrep df qualifiers)).cols.filter
          (fun c => c ∉ D)).length) + features.length + qualifiers.length = _
      rw [hacols]
      rw [List.filter_append, List.filter_append]
      have hcq : (["col_qualifiers"].filter (fun c => c ∉ D)) = [] := by
        have : "col_qualifiers" ∈ D := by
          rw [hD]; simp
        simp [this]
      have hG : (P.map wideName).filter (fun c => c ∉ D) = P.map wideName := by
        rw [List.filter_eq_self]
        intro g hg
        obtain ⟨cf, hcf, rfl⟩ := List.mem_map.mp hg
        have hin := h5 cf hcf
        simp only [decide_eq_true_eq]
        intro hmem
        rw [hD] at hmem
        rcases List.mem_append.mp hmem with h | h
        · exact hin.1 (h2 _ h)
        · exact hin.2 (by simpa using h)
      have hbase : (df.cols.filter (fun c => c ∉ D)) =
          (df.cols.filter (fun c => c ∉ features ++ qualifiers)) := by
        apply List.filter_congr
        intro c hc
        have hccq : c ≠ "col_qualifiers" := fun h => h4 (h ▸ hc)
        have hiff : (c ∈ D) ↔ (c ∈ features ++ qualifiers) := by
          rw [hD]
          simp only [List.append_assoc, List.mem_append, List.mem_singleton]
          constructor
          · rintro (h | h | h)
            · exact Or.inl h
            · exact Or.inr h
            · exact absurd h hccq
          · rintro (h | h)
            · exact Or.inl h
            · exact Or.inr (Or.inl h)
        simp [hiff]
      have hcount := length_filter_not_mem df.cols (features ++ qualifiers)
        h1 h3 h2
      have hglen : (P.map wideName).length
          = (widenCombos df qualifiers).length * features.length := by
        rw [List.length_map, hP, comboPairs_length]
      rw [hcq, hbase, List.append_nil, List.length_append, hG, hglen]
      rw [List.length_append] at hcount
      omega

/-- C1 counterexample: on a non-empty table whose single generated wide name
a_value collides with an existing column, the output has 1 column while the
claimed count columns(in) − |features| − |qualifiers| + |combos|·|features|
is 2: the claimed column formula does not hold for every non-empty table. -/
theorem c1_widen_counterexample :
    widenCollisionDF.rows.length = 1
    ∧ (widen widenCollisionDF ["value"] ["q"]).rows.length = 1
    ∧ (widen widenCollisionDF ["value"] ["q"]).cols.length
        ≠ widenCollisionDF.cols.length - ["value"].length - ["q"].length
          + (widenCombos widenCollisionDF ["q"]).length * ["value"].length := by
  decide

/-- Witness for c1_widen_counts on a concrete collision-free table. -/
theorem c1_widen_counts_witness :
    (widen widenPlainDF ["value"] ["q"]).cols.length + ["value"].length
        + ["q"].length
      = widenPlainDF.cols.length
        + (widenCombos widenPlainDF ["q"]).length * ["value"].length :=
  (c1_widen_counts widenPlainDF ["value"] ["q"] (by decide) (by decide)
    (by decide) (by decide) (by decide) (by decide)).2.2 (by decide)

theorem rowGet_rowSetAux (r : Row) (c d : String) (v : Value) :
    rowGet (rowSetAux r c v) d
      = if d = c then (if rowHasCol r c then v else Value.na)
        else rowGet r d := by
  induction r with
  | nil => by_cases h : d = c <;> simp [rowSetAux, rowGet, rowHasCol, h]
  | cons p ps ih =>
      obtain ⟨k, w⟩ := p
      by_cases hkc : k = c
      · subst hkc
        by_cases hdk : d = k
        · subst hdk
          simp [rowSetAux, rowGet, rowHasCol]
        · simp [rowSetAux, rowGet, rowHasCol, hdk, ih]
      · by_cases hdk : d = k
        · subst hdk
          have hdc : d ≠ c := hkc
          simp [rowSetAux, rowGet, rowHasCol, hdc, hkc]
        · simp [rowSetAux, rowGet, rowHasCol, hdk, hkc, ih]

theorem rowGet_append_single (r : Row) (c d : String) (v : Value)
    (h : rowHasCol r c = false) :
    rowGet (r ++ [(c, v)]) d = if d = c then v else rowGet r d := by
  induction r with
  | nil => by_cases hdc : d = c <;> simp [rowGet, hdc]
  | cons p ps ih =>
      obtain ⟨k, w⟩ := p
      simp only [rowHasCol, Bool.or_eq_false_iff] at h
      by_cases hdk : d = k
      · subst hdk
        have hdc : d ≠ c := fun hh => by
          have := h.1
          simp [hh] at this
        simp [rowGet, hdc]
      · simp [rowGet, hdk, ih h.2]

theorem rowGet_rowSet (r : Row) (c d : String) (v : Value) :
    rowGet (rowSet r c v) d = if d = c then v else rowGet r d := by
  rw [rowSet]
  cases h : rowHasCol r c with
  | true => rw [if_pos (by simp), rowGet_rowSetAux, h]; simp
  | false => rw [if_neg (by simp [h]), rowGet_append_single r c d v h]

theorem tailD_length {α : Type} (l : List α) :
    (l.tail?.getD []).length = l.length - 1 := by
  cases l <;> simp

theorem expandExtras_length (r : Row) :
    (expandExtras r).length = extraSiteCount r := by
  rw [expandExtras, extraSiteCount]
  by_cases h : rowHasMultiSite r = true
  · simp [h, tailD_length]
  · simp at h
    simp [h]

theorem parseSampleRows_length (rows : List Row) :
    (parseSampleRows rows).length
      = rows.length + (rows.map extraSiteCount).sum := by
  rw [parseSampleRows, List.length_append, List.length_map]
  congr 1
  induction rows with
  | nil => simp
  | cons r rs ih => simp [List.flatMap_cons, ih, expandExtras_length]

/-- C2: _parse_sample fans delimited siteID lists out over extra rows — the
output row count is the input count plus, per row, the number of distinct
site identifiers beyond the first; a row whose siteID is qc_1;qc_2 expands
to exactly the two rows obtained from it by setting siteID to qc_1 and qc_2;
and a row rewritten at siteID differs from the original in no other field. -/
theorem c2_parse_sample_fanout :
    (∀ df : DF, (parseSample df).rows.length
        = df.rows.length + (df.rows.map extraSiteCount).sum)
    ∧ (∀ r : Row, rowGet r "siteID" = Value.str "qc_1;qc_2" →
        parseSampleRows [r]
          = [rowSet r "siteID" (Value.str "qc_1"),
             rowSet r "siteID" (Value.str "qc_2")])
    ∧ (∀ (r : Row) (v : Value), rowGet (rowSet r "siteID" v) "siteID" = v)
    ∧ (∀ (r : Row) (v : Value) (c : String),
        c ≠ "siteID" → rowGet (rowSet r "siteID" v) c = rowGet r c) := by
  refine ⟨?_, ?_, ?_, ?_⟩
  · intro df
    rw [parseSample]
    by_cases h : df.rows.isEmpty = true
    · rw [if_pos h]
      rw [List.isEmpty_iff] at h
      simp [h]
    · rw [if_neg h]
      show (List.map _ (parseSampleRows df.rows)).length = _
      rw [List.length_map, parseSampleRows_length]
  · intro r h
    have hss : siteStr r = "qc_1;qc_2" := by rw [siteStr, h]
    have hmulti : rowHasMultiSite r = true := by
      rw [rowHasMultiSite, hss]; decide
    have hsplit : splitSiteIds "qc_1;qc_2" = ["qc_1", "qc_2"] := by decide
    simp [parseSampleRows, expandKeep, expandExtras, hmulti, hss,
      poppedSiteId, hsplit]
  · intro r v
    rw [rowGet_rowSet]
    simp
  · intro r v c hc
    rw [rowGet_rowSet, if_neg hc]

/-- Witness for c2_parse_sample_fanout on the concrete two-site row. -/
theorem c2_parse_sample_fanout_witness :
    parseSampleRows [qcRow]
      = [rowSet qcRow "siteID" (Value.str "qc_1"),
         rowSet qcRow "siteID" (Value.str "qc_2")] :=
  c2_parse_sample_fanout.2.1 qcRow (by decide)

/-- C9 fails on the code: combine_per_sample is not read-only on the store.
Its _parse_sample stage edits the siteID column of the frame it iterates,
and that frame aliases the stored sample table until the first append; on a
store whose sample table holds one row with siteID qc_1;qc_2 the stored row
ends up with siteID qc_1 — the stored sample table is changed by the call. -/
theorem c9_combine_mutates_store :
    (combinePerSampleStoreEffect multiSiteStore) TableName.sample
      ≠ multiSiteStore TableName.sample
    ∧ (combinePerSampleStoreEffect multiSiteStore) TableName.sample
      = ⟨["sampleID", "siteID"],
         [[("sampleID", Value.str "s1"), ("siteID", Value.str "qc_1")]]⟩ := by
  decide

/- ----------------------------------------------------------------
   Store lemmas: append_from (C6, C7, C10).
----------------------------------------------------------------- -/

theorem rowGet_alignRow (cols : List String) (r : Row) (c : String)
    (hc : c ∈ cols) : rowGet (alignRow cols r) c = rowGet r c := by
  induction cols with
  | nil => simp at hc
  | cons k ks ih =>
      have hmap : alignRow (k :: ks) r = (k, rowGet r k) :: alignRow ks r := by
        simp [alignRow]
      by_cases hck : c = k
      · subst hck
        rw [hmap]
        simp [rowGet]
      · rcases List.mem_cons.mp hc with h | h
        · exact absurd h hck
        · rw [hmap]
          simp only [rowGet, if_neg hck]
          exact ih h

theorem alignRow_alignRow (cols : List String) (r : Row) :
    alignRow cols (alignRow cols r) = alignRow cols r := by
  show cols.map _ = cols.map _
  apply List.map_congr_left
  intro c hc
  rw [rowGet_alignRow cols r c hc]

theorem mem_unionCols (a b : List String) (c : String) :
    c ∈ unionCols a b ↔ c ∈ a ∨ c ∈ b := by
  rw [unionCols]
  simp only [List.mem_append, List.mem_filter, decide_eq_true_eq]
  constructor
  · rintro (h | ⟨h, _⟩)
    · exact Or.inl h
    · exact Or.inr h
  · rintro (h | h)
    · exact Or.inl h
    · by_cases ha : c ∈ a
      · exact Or.inl ha
      · exact Or.inr ⟨h, ha⟩

theorem unionCols_of_sub (a b : List String) (h : ∀ c ∈ b, c ∈ a) :
    unionCols a b = a := by
  rw [unionCols]
  have : b.filter (fun c => c ∉ a) = [] := by
    rw [List.filter_eq_nil_iff]
    intro c hc
    simp [h c hc]
  rw [this, List.append_nil]

theorem mergeTable_empty_left (cur new : DF) (h : cur.rows.isEmpty = true) :
    mergeTable cur new = new := by
  rw [mergeTable, if_pos h]

theorem mergeTable_skip (cur new : DF) (hc : cur.rows.isEmpty = false)
    (hn : new.rows.isEmpty = true) : mergeTable cur new = cur := by
  rw [mergeTable, if_neg (by simp [hc]), if_pos hn]

theorem mergeTable_merge (cur new : DF) (hc : cur.rows.isEmpty = false)
    (hn : new.rows.isEmpty = false) :
    mergeTable cur new
      = { cols := unionCols cur.cols new.cols,
          rows := dedupFirst ((cur.rows ++ new.rows).map
            (alignRow (unionCols cur.cols new.cols))) } := by
  rw [mergeTable, if_neg (by simp [hc]), if_neg (by simp [hn])]

/-- Merging a table into a merge that already contains its rows leaves the
row set unchanged: the core of append idempotence. -/
theorem mem_mergeTable_twice (C N : DF) (hN : WellFormedDF N) (r : Row) :
    r ∈ (mergeTable (mergeTable C N) N).rows ↔ r ∈ (mergeTable C N).rows := by
  by_cases hNe : N.rows.isEmpty = true
  · by_cases hCe : C.rows.isEmpty = true
    · rw [mergeTable_empty_left C N hCe, mergeTable_empty_left N N hNe]
    · have hCf : C.rows.isEmpty = false := by
        cases h : C.rows.isEmpty
        · rfl
        · exact absurd h hCe
      rw [mergeTable_skip C N hCf hNe, mergeTable_skip C N hCf hNe]
  · have hNf : N.rows.isEmpty = false := by
      cases h : N.rows.isEmpty
      · rfl
      · exact absurd h hNe
    by_cases hCe : C.rows.isEmpty = true
    · -- the first merge replaces the empty stored table by N
      rw [mergeTable_empty_left C N hCe, mergeTable_merge N N hNf hNf]
      have hu : unionCols N.cols N.cols = N.cols :=
        unionCols_of_sub N.cols N.cols (fun c hc => hc)
      show r ∈ dedupFirst ((N.rows ++ N.rows).map
        (alignRow (unionCols N.cols N.cols))) ↔ _
      rw [hu, mem_dedupFirst]
      simp only [List.map_append, List.mem_append, List.mem_map]
      constructor
      · rintro (⟨x, hx, rfl⟩ | ⟨x, hx, rfl⟩) <;>
          { rw [hN.2 x hx]; exact hx }
      · intro hr
        exact Or.inl ⟨r, hr, hN.2 r hr⟩
    · have hCf : C.rows.isEmpty = false := by
        cases h : C.rows.isEmpty
        · rfl
        · exact absurd h hCe
      rw [mergeTable_merge C N hCf hNf]
      set u := unionCols C.cols N.cols with hu
      set R1 := dedupFirst ((C.rows ++ N.rows).map (alignRow u)) with hR1
      have hR1ne : R1.isEmpty = false := by
        have hmapne : (C.rows ++ N.rows).map (alignRow u) ≠ [] := by
          simp only [ne_eq, List.map_eq_nil_iff, List.append_eq_nil]
          rintro ⟨h1, _⟩
          rw [h1] at hCf
          simp at hCf
        have hne2 := dedupFirst_ne_nil _ hmapne
        rw [hR1]
        cases h : (dedupFirst ((C.rows ++ N.rows).map (alignRow u))).isEmpty
        · rfl
        · rw [List.isEmpty_iff] at h
          exact absurd h hne2
      have hsubN : ∀ c ∈ N.cols, c ∈ u := by
        intro c hc
        rw [hu, mem_unionCols]
        exact Or.inr hc
      have hu2 : unionCols u N.cols = u := unionCols_of_sub u N.cols hsubN
      have halignR1 : ∀ x ∈ R1, alignRow u x = x := by
        intro x hx
        rw [hR1, mem_dedupFirst] at hx
        obtain ⟨y, _, rfl⟩ := List.mem_map.mp hx
        exact alignRow_alignRow u y
      rw [mergeTable_merge ⟨u, R1⟩ N hR1ne hNf]
      show r ∈ dedupFirst ((R1 ++ N.rows).map (alignRow (unionCols u N.cols)))
        ↔ r ∈ R1
      rw [hu2, mem_dedupFirst]
      simp only [List.map_append, List.mem_append, List.mem_map]
      constructor
      · rintro (⟨x, hx, rfl⟩ | ⟨x, hx, rfl⟩)
        · rw [halignR1 x hx]; exact hx
        · rw [hR1, mem_dedupFirst]
          apply List.mem_map.mpr
          exact ⟨x, List.mem_append.mpr (Or.inr hx), rfl⟩
      · intro hr
        exact Or.inl ⟨r, hr, halignR1 r hr⟩

/-- C6: a source whose validates() verdict is false makes append_from raise
the invalid-data error before the merge loop runs: the call returns the
error and leaves every one of the store's ten tables exactly as it was. -/
theorem c6_append_from_invalid_is_atomic (store : OdmStore) (src : Source)
    (h : src.validatesOf = false) :
    appendFromRun store src
        = (some "mapper object contains invalid data", store)
    ∧ ∀ t : TableName, (appendFromRun store src).2 t = store t := by
  refine ⟨by rw [appendFromRun, if_pos h], fun t => by rw [appendFromRun, if_pos h]⟩

/-- Witness for c6_append_from_invalid_is_atomic on a concrete store and
invalid mapper. -/
theorem c6_append_from_invalid_is_atomic_witness :
    appendFromRun witnessStore invalidSource
      = (some "mapper object contains invalid data", witnessStore) :=
  (c6_append_from_invalid_is_atomic witnessStore invalidSource rfl).1

/-- C7: appending the same valid source twice leaves every table of the
store with the same row set as appending it once.  The two structural
hypotheses state what pandas guarantees for every real DataFrame: unique
column names, and rows expressed exactly on the column list. -/
theorem c7_append_from_idempotent (store : OdmStore) (src : Source)
    (hv : src.validatesOf = true)
    (hwf : ∀ t : TableName, WellFormedDF (src.tables t)) :
    (appendFromRun store src).1 = none
    ∧ ∀ (t : TableName) (r : Row),
        r ∈ ((appendFromRun (appendFromRun store src).2 src).2 t).rows
          ↔ r ∈ ((appendFromRun store src).2 t).rows := by
  have hrun : ∀ s : OdmStore, appendFromRun s src
      = (none, fun t => mergeTable (s t) (src.tables t)) := by
    intro s
    rw [appendFromRun, if_neg (by simp [hv])]
  refine ⟨by rw [hrun], fun t r => ?_⟩
  rw [hrun, hrun]
  exact mem_mergeTable_twice (store t) (src.tables t) (hwf t) r

/-- Witness for c7_append_from_idempotent on a concrete store, source and
row. -/
theorem c7_append_from_idempotent_witness :
    siteRowB ∈ ((appendFromRun (appendFromRun witnessStore witnessSource).2
          witnessSource).2 TableName.site).rows
      ↔ siteRowB ∈ ((appendFromRun witnessStore witnessSource).2
          TableName.site).rows :=
  (c7_append_from_idempotent witnessStore witnessSource rfl
    (by intro t; cases t <;> exact ⟨by decide, by decide⟩)).2
    TableName.site siteRowB

/-- C10: when the source is itself an Odm instance, append_from never
consults a validates() predicate — the isinstance test short-circuits the
verdict to True — so the call never raises and merges the tables
unconditionally, whatever they contain. -/
theorem c10_append_from_odm_skips_validation (store : OdmStore)
    (o : OdmStore) :
    appendFromRun store (Source.odm o)
      = (none, fun t => mergeTable (store t) (o t)) := by
  rw [appendFromRun]
  simp [Source.validatesOf, Source.tables]

/- ----------------------------------------------------------------
   C5: the inclusive interval join, and C8: plot timestamps.
----------------------------------------------------------------- -/

/-- C5: in combine_sample_site_measure, a site measure is joined to a sample
row exactly when its timestamp lies in the inclusive interval
[Sample.dateTimeStart, Sample.dateTimeEnd] (SQL BETWEEN): the join predicate
holds iff start ≤ t ≤ end on present timestamps, a measure at either
boundary satisfies it, every matching pair contributes its merged row to the
join output on non-empty tables, and the concrete boundary table confirms
that measures at t = 10 and t = 20 of the interval [10, 20] are joined while
t = 21 is not. -/
theorem c5_interval_join_inclusive :
    (∀ (m r : Row) (t a b : ℤ),
        rowGet m "SiteMeasure.dateTime" = Value.time t →
        rowGet r "Sample.dateTimeStart" = Value.time a →
        rowGet r "Sample.dateTimeEnd" = Value.time b →
        (smBetween m r = true ↔ (a ≤ t ∧ t ≤ b)))
    ∧ (∀ (sample sm : DF) (r m : Row),
        sample.rows.isEmpty = false → sm.rows.isEmpty = false →
        r ∈ sample.rows → m ∈ sm.rows → smBetween m r = true →
        (r ++ m) ∈ (combine_sample_site_measure sample sm).rows)
    ∧ ((smBetween (boundarySmRow 10) boundarySampleDF.rows.headI = true)
        ∧ (smBetween (boundarySmRow 20) boundarySampleDF.rows.headI = true)
        ∧ (smBetween (boundarySmRow 21) boundarySampleDF.rows.headI = false)
        ∧ (boundarySampleDF.rows.headI ++ boundarySmRow 10)
            ∈ (combine_sample_site_measure boundarySampleDF boundarySmDF).rows
        ∧ (boundarySampleDF.rows.headI ++ boundarySmRow 20)
            ∈ (combine_sample_site_measure boundarySampleDF boundarySmDF).rows) := by
  refine ⟨?_, ?_, by decide⟩
  · intro m r t a b hm ha hb
    rw [smBetween, hm, ha, hb]
    constructor
    · intro h
      have := Bool.and_eq_true_iff.mp h
      exact ⟨of_decide_eq_true this.1, of_decide_eq_true this.2⟩
    · rintro ⟨h1, h2⟩
      simp [h1, h2]
  · intro sample sm r m hs hsm hr hm hmatch
    rw [combine_sample_site_measure, if_neg (by simp [hs]),
      if_neg (by simp [hs]), if_neg (by simp [hsm])]
    show (r ++ m) ∈ sample.rows.flatMap (smJoinRow sm.cols sm.rows)
    apply List.mem_flatMap.mpr
    refine ⟨r, hr, ?_⟩
    rw [smJoinRow]
    have hms : m ∈ sm.rows.filter (fun m => smBetween m r) :=
      List.mem_filter.mpr ⟨hm, by simp [hmatch]⟩
    have hne : (sm.rows.filter (fun m => smBetween m r)).isEmpty = false := by
      cases h : (sm.rows.filter (fun m => smBetween m r)).isEmpty
      · rfl
      · rw [List.isEmpty_iff] at h
        rw [h] at hms
        simp at hms
    rw [if_neg (by simp [hne])]
    exact List.mem_map.mpr ⟨m, hms, rfl⟩

/-- Witness for c5_interval_join_inclusive: the predicate at the exact start
boundary of the concrete interval. -/
theorem c5_interval_join_inclusive_witness :
    smBetween (boundarySmRow 10) boundarySampleDF.rows.headI = true ↔
      ((10 : ℤ) ≤ 10 ∧ (10 : ℤ) ≤ 20) :=
  c5_interval_join_inclusive.1 (boundarySmRow 10) boundarySampleDF.rows.headI
    10 10 20 (by decide) (by decide) (by decide)

/-- C8 counterexample: a grab sample that also carries both interval ends
gets the midpoint of the interval as its plot timestamp, not its instant
field — the masked midpoint assignment runs after, and overwrites, the grab
assignment.  Claim C8 as stated (every grab sample gets dateTime) is false. -/
theorem c8_plot_datetime_counterexample :
    getPlotDate ⟨"grb", some 0, some 10, some 100⟩ = some 5
    ∧ getPlotDate ⟨"grb", some 0, some 10, some 100⟩ ≠ some 100 := by
  decide

/-- C8 (amended): the interval rules take precedence over the grab rule —
a sample with both dateTimeStart and dateTimeEnd present gets the midpoint
date1 + (date2 - date1)/2 whatever its collection method; a sample with only
dateTimeEnd present gets dateTimeEnd; a sample with no dateTimeEnd and no
start-end pair gets its instant field when its collection contains grb, and
no timestamp otherwise. -/
theorem c8_plot_datetime_cases (s : GSample) :
    (∀ a b : ℤ, s.dateTimeStart = some a → s.dateTimeEnd = some b →
        getPlotDate s = some (getMidpointTime a b))
    ∧ (∀ b : ℤ, s.dateTimeStart = none → s.dateTimeEnd = some b →
        getPlotDate s = some b)
    ∧ (s.dateTimeEnd = none → strContains s.collection "grb" = true →
        getPlotDate s = s.dateTime)
    ∧ (s.dateTimeEnd = none → strContains s.collection "grb" = false →
        getPlotDate s = none) := by
  refine ⟨?_, ?_, ?_, ?_⟩
  · intro a b ha hb
    rw [getPlotDate]
    simp [ha, hb]
  · intro b ha hb
    rw [getPlotDate]
    simp [ha, hb]
  · intro hb hg
    rw [getPlotDate]
    cases hs : s.dateTimeStart <;> simp [hs, hb, hg]
  · intro hb hg
    rw [getPlotDate]
    cases hs : s.dateTimeStart <;> simp [hs, hb, hg]

/-- Witness for c8_plot_datetime_cases: a composite sample over [0, 10] gets
plot timestamp 5. -/
theorem c8_plot_datetime_cases_witness :
    getPlotDate ⟨"cp", some 0, some 10, none⟩ = some (getMidpointTime 0 10) :=
  (c8_plot_datetime_cases ⟨"cp", some 0, some 10, none⟩).1 0 10 rfl rfl

/- ----------------------------------------------------------------
   C3: collection-method selection.
----------------------------------------------------------------- -/

/-- The sort key order as a relation on method rows. -/
def cmRowLE (x y : CmRow) : Prop := lastLE x.last y.last = true

theorem lastLE_total (a b : Option ℤ) :
    lastLE a b = true ∨ lastLE b a = true := by
  cases a <;> cases b <;> simp [lastLE] <;> omega

theorem lastLE_trans (a b c : Option ℤ) (h1 : lastLE a b = true)
    (h2 : lastLE b c = true) : lastLE a c = true := by
  cases a <;> cases b <;> cases c <;> simp [lastLE] at * <;> omega

theorem mem_insertByLast (x a : CmRow) (l : List CmRow) :
    a ∈ insertByLast x l ↔ a = x ∨ a ∈ l := by
  induction l with
  | nil => simp [insertByLast]
  | cons y ys ih =>
      rw [insertByLast]
      by_cases h : lastLE x.last y.last = true
      · simp [h]
      · rw [if_neg h]
        simp only [List.mem_cons, ih]
        tauto

theorem mem_sortByLast (a : CmRow) (l : List CmRow) :
    a ∈ sortByLast l ↔ a ∈ l := by
  induction l with
  | nil => simp [sortByLast]
  | cons y ys ih => rw [sortByLast, mem_insertByLast, ih, List.mem_cons]

theorem insertByLast_pairwise (x : CmRow) (l : List CmRow)
    (h : l.Pairwise cmRowLE) : (insertByLast x l).Pairwise cmRowLE := by
  induction l with
  | nil => simp [insertByLast, List.pairwise_singleton]
  | cons y ys ih =>
      rw [insertByLast]
      rcases List.pairwise_cons.mp h with ⟨hy, hys⟩
      by_cases hxy : lastLE x.last y.last = true
      · rw [if_pos hxy]
        refine List.pairwise_cons.mpr ⟨?_, h⟩
        intro z hz
        rcases List.mem_cons.mp hz with rfl | hz
        · exact hxy
        · exact lastLE_trans _ _ _ hxy (hy z hz)
      · rw [if_neg hxy]
        refine List.pairwise_cons.mpr ⟨?_, ih hys⟩
        intro z hz
        rcases (mem_insertByLast x z ys).mp hz with hzx | hz
        · subst hzx
          rcases lastLE_total z.last y.last with h1 | h1
          · exact absurd h1 hxy
          · exact h1
        · exact hy z hz

theorem sortByLast_pairwise (l : List CmRow) :
    (sortByLast l).Pairwise cmRowLE := by
  induction l with
  | nil => simp [sortByLast]
  | cons y ys ih => exact insertByLast_pairwise y (sortByLast ys) ih

theorem getLast?_mem {α : Type} (l : List α) (y : α)
    (h : l.getLast? = some y) : y ∈ l := by
  induction l with
  | nil => simp at h
  | cons a as ih =>
      cases as with
      | nil => simp at h; simp [h]
      | cons b bs =>
          rw [List.getLast?_cons_cons] at h
          exact List.mem_cons_of_mem a (ih h)

theorem pairwise_getLast_max (l : List CmRow) :
    l.Pairwise cmRowLE → ∀ y, l.getLast? = some y →
      ∀ x ∈ l, x = y ∨ cmRowLE x y := by
  induction l with
  | nil => intro _ y hy; simp at hy
  | cons a as ih =>
      intro h y hy
      rcases List.pairwise_cons.mp h with ⟨ha, has⟩
      cases as with
      | nil =>
          simp at hy
          intro x hx
          rcases List.mem_cons.mp hx with rfl | hx
          · exact Or.inl (by simp_all)
          · simp at hx
      | cons b bs =>
          rw [List.getLast?_cons_cons] at hy
          intro x hx
          rcases List.mem_cons.mp hx with rfl | hx
          · exact Or.inr (ha y (getLast?_mem _ y hy))
          · exact ih has y hy x hx

theorem lastLE_refl (a : Option ℤ) : lastLE a a = true := by
  cases a <;> simp [lastLE]

theorem getLast?_eq_none_iff_nil {α : Type} (l : List α) :
    l.getLast? = none ↔ l = [] := by
  constructor
  · intro h
    by_contra hne
    have hs := List.getLast?_isSome.mpr hne
    rw [h] at hs
    simp at hs
  · rintro rfl
    rfl

theorem mem_cmRows (samples : List GSample) (r : CmRow) :
    r ∈ cmRows samples ↔ ∃ cm ∈ possibleCms, r = cmRowOf samples cm := by
  rw [cmRows]
  constructor
  · intro h
    obtain ⟨cm, hcm, rfl⟩ := List.mem_map.mp h
    exact ⟨cm, hcm, rfl⟩
  · rintro ⟨cm, hcm, rfl⟩
    exact List.mem_map_of_mem _ hcm

theorem mem_cmDated (samples : List GSample) (r : CmRow) :
    r ∈ cmDated samples ↔ r ∈ cmRows samples ∧ r.last.isSome = true := by
  rw [cmDated, List.mem_filter, mem_sortByLast]

theorem cmDated_pairwise (samples : List GSample) :
    (cmDated samples).Pairwise cmRowLE :=
  (sortByLast_pairwise _).filter _

theorem cmFinal_pairwise (samples : List GSample) (t : ℕ) :
    (cmFinal samples t).Pairwise cmRowLE :=
  (cmDated_pairwise samples).filter _

theorem mem_cmFinal (samples : List GSample) (t : ℕ) (r : CmRow) :
    r ∈ cmFinal samples t
      ↔ r ∈ cmDated samples ∧ cmThresh samples t ≤ r.n := by
  rw [cmFinal, List.mem_filter]
  simp

/-- The selection logic of get_cm_to_plot — the computation of a
non-raising call, and the selection the spec describes: no method exactly
when none of the three collection methods has a dated sample; a returned
method is dated and its latest plot date is the most recent one in the
applicable pool: the methods with at least thresh_n samples when some dated
method reaches the threshold, all dated methods otherwise.  On the example —
ten "cp" samples with latest day 456 and three "grb" samples with latest day
486, threshold 7 — it picks "cp" despite "grb" being more recent. -/
theorem getCmToPlot_selection (samples : List GSample) (t : ℕ) :
    (getCmToPlot samples t = none ↔
      ∀ cm ∈ possibleCms, (cmStats samples cm).2 = none)
    ∧ (∀ cmv, getCmToPlot samples t = some cmv →
        cmv ∈ possibleCms ∧ (cmStats samples cmv).2.isSome = true
        ∧ ((∃ c ∈ possibleCms, (cmStats samples c).2.isSome = true
              ∧ t ≤ (cmStats samples c).1) →
            t ≤ (cmStats samples cmv).1
            ∧ ∀ c ∈ possibleCms, (cmStats samples c).2.isSome = true →
                t ≤ (cmStats samples c).1 →
                lastLE (cmStats samples c).2 (cmStats samples cmv).2 = true)
        ∧ ((∀ c ∈ possibleCms, (cmStats samples c).2.isSome = true →
              (cmStats samples c).1 < t) →
            ∀ c ∈ possibleCms, (cmStats samples c).2.isSome = true →
              lastLE (cmStats samples c).2 (cmStats samples cmv).2 = true))
    ∧ getCmToPlot cmExampleSamples 7 = some "cp" := by
  have hfinal_nil : cmFinal samples t = [] ↔ cmDated samples = [] := by
    constructor
    · intro h
      rw [cmFinal, cmThresh] at h
      by_cases hc : ((cmDated samples).filter (fun r => t ≤ r.n)).length = 0
      · rw [if_pos hc] at h
        have hall : (cmDated samples).filter (fun r => (0 : ℕ) ≤ r.n)
            = cmDated samples := by
          rw [List.filter_eq_self]
          intro a _
          simp
        rw [hall] at h
        exact h
      · rw [if_neg hc] at h
        rw [h] at hc
        simp at hc
    · intro h
      rw [cmFinal, h]
      rfl
  have hdated_nil : cmDated samples = [] ↔
      ∀ cm ∈ possibleCms, (cmStats samples cm).2 = none := by
    rw [cmDated, List.filter_eq_nil_iff]
    constructor
    · intro h cm hcm
      have hr : cmRowOf samples cm ∈ sortByLast (cmRows samples) :=
        (mem_sortByLast _ _).mpr ((mem_cmRows _ _).mpr ⟨cm, hcm, rfl⟩)
      have hno := h _ hr
      cases h2 : (cmStats samples cm).2 with
      | none => rfl
      | some d =>
          exfalso
          apply hno
          show (cmRowOf samples cm).last.isSome = true
          rw [cmRowOf]
          simp [h2]
    · intro h r hr
      rw [mem_sortByLast] at hr
      obtain ⟨cm, hcm, rfl⟩ := (mem_cmRows _ _).mp hr
      show ¬((cmRowOf samples cm).last.isSome = true)
      rw [cmRowOf]
      simp [h cm hcm]
  refine ⟨?_, ?_, by decide⟩
  · rw [getCmToPlot]
    cases hlast : (cmFinal samples t).getLast? with
    | none =>
        rw [getLast?_eq_none_iff_nil] at hlast
        rw [hfinal_nil, hdated_nil] at hlast
        exact ⟨fun _ => hlast, fun _ => rfl⟩
    | some y =>
        have hne : ¬(cmFinal samples t = []) := by
          intro h0
          rw [h0] at hlast
          simp at hlast
        rw [hfinal_nil, hdated_nil] at hne
        constructor
        · intro h
          simp at h
        · intro h
          exact absurd h hne
  · intro cmv hcmv
    rw [getCmToPlot] at hcmv
    cases hlast : (cmFinal samples t).getLast? with
    | none => rw [hlast] at hcmv; simp at hcmv
    | some y =>
        rw [hlast] at hcmv
        have hcmv2 : y.cmType = cmv := by
          simpa using hcmv
        have hymem : y ∈ cmFinal samples t := getLast?_mem _ y hlast
        have hyd := (mem_cmFinal samples t y).mp hymem
        obtain ⟨cm, hcm, hy⟩ := (mem_cmRows samples y).mp
          ((mem_cmDated samples y).mp hyd.1).1
        have hysome := ((mem_cmDated samples y).mp hyd.1).2
        have hcmeq : cmv = cm := by
          rw [← hcmv2, hy, cmRowOf]
        subst hcmeq
        have hylast : y.last = (cmStats samples cmv).2 := by
          rw [hy, cmRowOf]
        have hyn : y.n = (cmStats samples cmv).1 := by
          rw [hy, cmRowOf]
        have hmax : ∀ x ∈ cmFinal samples t, lastLE x.last y.last = true := by
          intro x hx
          rcases pairwise_getLast_max _ (cmFinal_pairwise samples t) y hlast
            x hx with h | h
          · rw [h]
            exact lastLE_refl _
          · exact h
        refine ⟨hcm, by rw [← hylast]; exact hysome, ?_, ?_⟩
        · rintro ⟨c0, hc0, hc0s, hc0n⟩
          have hc0mem : cmRowOf samples c0 ∈ cmDated samples := by
            rw [mem_cmDated]
            refine ⟨(mem_cmRows _ _).mpr ⟨c0, hc0, rfl⟩, ?_⟩
            show (cmRowOf samples c0).last.isSome = true
            rw [cmRowOf]
            exact hc0s
          have hlen : ¬(((cmDated samples).filter
              (fun r => t ≤ r.n)).length = 0) := by
            have hmemf : cmRowOf samples c0
                ∈ (cmDated samples).filter (fun r => t ≤ r.n) := by
              apply List.mem_filter.mpr
              refine ⟨hc0mem, ?_⟩
              simp only [decide_eq_true_eq]
              show t ≤ (cmRowOf samples c0).n
              rw [cmRowOf]
              exact hc0n
            intro h0
            rw [List.length_eq_zero] at h0
            rw [h0] at hmemf
            simp at hmemf
          have hthresh : cmThresh samples t = t := by
            rw [cmThresh, if_neg hlen]
          constructor
          · rw [← hyn]
            rw [hthresh] at hyd
            exact hyd.2
          · intro c hc hcs hcn
            have hcfin : cmRowOf samples c ∈ cmFinal samples t := by
              rw [mem_cmFinal, hthresh]
              refine ⟨?_, ?_⟩
              · rw [mem_cmDated]
                refine ⟨(mem_cmRows _ _).mpr ⟨c, hc, rfl⟩, ?_⟩
                show (cmRowOf samples c).last.isSome = true
                rw [cmRowOf]
                exact hcs
              · show t ≤ (cmRowOf samples c).n
                rw [cmRowOf]
                exact hcn
            have := hmax _ hcfin
            rw [hylast] at this
            rw [show (cmStats samples c).2 = (cmRowOf samples c).last from rfl]
            exact this
        · intro hall c hc hcs
          have hlen0 : ((cmDated samples).filter
              (fun r => t ≤ r.n)).length = 0 := by
            rw [List.length_eq_zero, List.filter_eq_nil_iff]
            intro r hr
            obtain ⟨hrrows, hrsome⟩ := (mem_cmDated _ _).mp hr
            obtain ⟨c2, hc2, rfl⟩ := (mem_cmRows _ _).mp hrrows
            have hlt := hall c2 hc2 (by
              rw [show (cmStats samples c2).2
                  = (cmRowOf samples c2).last from rfl]
              exact hrsome)
            simp only [decide_eq_true_eq]
            show ¬(t ≤ (cmStats samples c2).1)
            omega
          have hthresh0 : cmThresh samples t = 0 := by
            rw [cmThresh, if_pos hlen0]
          have hcfin : cmRowOf samples c ∈ cmFinal samples t := by
            rw [mem_cmFinal, hthresh0]
            refine ⟨?_, Nat.zero_le _⟩
            rw [mem_cmDated]
            refine ⟨(mem_cmRows _ _).mpr ⟨c, hc, rfl⟩, ?_⟩
            show (cmRowOf samples c).last.isSome = true
            rw [cmRowOf]
            exact hcs
          have := hmax _ hcfin
          rw [hylast] at this
          rw [show (cmStats samples c).2 = (cmRowOf samples c).last from rfl]
          exact this

/-- The selection logic at the claim's example: "cp" is in the method list,
dated, meets the threshold, and has the most recent latest-date among
threshold-meeting methods. -/
theorem getCmToPlot_selection_example :
    "cp" ∈ possibleCms
    ∧ (cmStats cmExampleSamples "cp").2.isSome = true
    ∧ (7 ≤ (cmStats cmExampleSamples "cp").1
        ∧ ∀ c ∈ possibleCms, (cmStats cmExampleSamples c).2.isSome = true →
            7 ≤ (cmStats cmExampleSamples c).1 →
            lastLE (cmStats cmExampleSamples c).2
              (cmStats cmExampleSamples "cp").2 = true) := by
  have h := (getCmToPlot_selection cmExampleSamples 7).2.1 "cp" (by decide)
  exact ⟨h.1, h.2.1, h.2.2.1 ⟨"cp", by decide, by decide, by decide⟩⟩

/-- C3 fails on the code as it runs: odm.py sets
pd.options.mode.chained_assignment = "raise" at import, so on the claim's
own example — ten composite and three grab samples, threshold 7 — the "cp"
(and "grb") slice is a non-empty proper subset of the frame and
get_cm_to_plot raises SettingWithCopyError inside get_plot_datetime instead
of returning a method.  The selection it was written to perform — proved in
getCmToPlot_selection — would have picked "cp", exactly as the claim says.
-/
theorem c3_get_cm_to_plot_raises :
    getCmToPlotRaises cmExampleSamples = true
    ∧ getCmToPlotRun cmExampleSamples 7 = (some "SettingWithCopyError", none)
    ∧ getCmToPlot cmExampleSamples 7 = some "cp" := by
  decide

/- ----------------------------------------------------------------
   C4: severity classification.
----------------------------------------------------------------- -/

theorem colorNorm_none_filterMap (l : List ℤ) :
    l.filterMap (colorNormAt none) = [] := by
  induction l with
  | nil => rfl
  | cons a as ih => simpa [colorNormAt] using ih

theorem firstBinAux_ge (es : List ℚ) (v : ℚ) (k j : ℕ)
    (h : firstBinAux es v k = some j) : k ≤ j := by
  induction es generalizing k with
  | nil => simp [firstBinAux] at h
  | cons e es ih =>
      rw [firstBinAux] at h
      by_cases hv : v ≤ e
      · rw [if_pos hv] at h
        injection h with h
        omega
      · rw [if_neg hv] at h
        have := ih (k + 1) h
        omega

theorem firstBinAux_mono (es : List ℚ) (v1 v2 : ℚ) (hv : v1 ≤ v2)
    (k j1 j2 : ℕ) (h1 : firstBinAux es v1 k = some j1)
    (h2 : firstBinAux es v2 k = some j2) : j1 ≤ j2 := by
  induction es generalizing k with
  | nil => simp [firstBinAux] at h1
  | cons e es ih =>
      rw [firstBinAux] at h1 h2
      by_cases hv2 : v2 ≤ e
      · rw [if_pos (le_trans hv hv2)] at h1
        rw [if_pos hv2] at h2
        injection h1 with h1
        injection h2 with h2
        omega
      · rw [if_neg hv2] at h2
        by_cases hv1 : v1 ≤ e
        · rw [if_pos hv1] at h1
          have hge := firstBinAux_ge es v2 (k + 1) j2 h2
          injection h1 with h1
          omega
        · rw [if_neg hv1] at h1
          exact ih (k + 1) h1 h2

theorem cutGuard_mono (lo : ℚ) (edges : List ℚ) (v1 v2 : ℚ) (k1 k2 : ℕ)
    (hv : v1 ≤ v2)
    (h1 : (if v1 ≤ lo then none else firstBinAux edges v1 1) = some k1)
    (h2 : (if v2 ≤ lo then none else firstBinAux edges v2 1) = some k2) :
    k1 ≤ k2 := by
  by_cases hg1 : v1 ≤ lo
  · rw [if_pos hg1] at h1
    simp at h1
  · rw [if_neg hg1] at h1
    by_cases hg2 : v2 ≤ lo
    · rw [if_pos hg2] at h2
      simp at h2
    · rw [if_neg hg2] at h2
      exact firstBinAux_mono edges v1 v2 hv 1 k1 k2 h1 h2

theorem cutLabel_mono (mn mx : ℚ) (n : ℕ) (v1 v2 : ℚ) (k1 k2 : ℕ)
    (hv : v1 ≤ v2) (h1 : cutLabel mn mx n v1 = some k1)
    (h2 : cutLabel mn mx n v2 = some k2) : k1 ≤ k2 := by
  by_cases hmn : mn = mx
  · simp only [cutLabel, if_pos hmn] at h1 h2
    exact cutGuard_mono _ _ v1 v2 k1 k2 hv h1 h2
  · simp only [cutLabel, if_neg hmn] at h1 h2
    exact cutGuard_mono _ _ v1 v2 k1 k2 hv h1 h2

/-- C4: the severity classification of get_color_ts.  (i) On a site whose
five target weeks carry the normalized ratios 1..5, the five weeks are
classified 1, 2, 3, 4, 5 — non-decreasing in the ratio, lowest value
severity 1, highest severity 5.  (ii) With no plotted samples every week of
the target range gets severity "0".  (iii) When exactly one week of the
window has a defined ratio, every week gets severity "1" — in particular the
dated one.  (iv) pd.cut's binning is monotone: a larger ratio never gets a
smaller bin index. -/
theorem c4_color_ts_severity :
    (getColorTs (some rampSamples) (some 6) (some 34) 0
      = [(6, "1"), (13, "2"), (20, "3"), (27, "4"), (34, "5")])
    ∧ (∀ (ds de : Option ℤ) (now : ℤ) (p : ℤ × String),
        p ∈ getColorTs none ds de now → p.2 = "0")
    ∧ (∀ (vs : List VSample) (ds de : Option ℤ) (now : ℤ),
        ((colorDates ds de now).filterMap (colorNormAt (some vs))).length
            = 1 →
        ∀ p ∈ getColorTs (some vs) ds de now, p.2 = "1")
    ∧ (∀ (mn mx v1 v2 : ℚ) (n k1 k2 : ℕ), v1 ≤ v2 →
        cutLabel mn mx n v1 = some k1 → cutLabel mn mx n v2 = some k2 →
        k1 ≤ k2) := by
  refine ⟨?_, ?_, ?_, ?_⟩
  · have hd : colorDates (some 6) (some 34) 0 = [6, 13, 20, 27, 34] := by
      decide
    have h6 : colorNormAt (some rampSamples) 6 = some 1 := by
      norm_num [colorNormAt, weeklyNorm, rampSamples, lastSundayOf,
        VSample.norm, normalizeByPmmv, ratMean, List.filterMap_cons,
        List.filterMap_nil]
    have h13 : colorNormAt (some rampSamples) 13 = some 2 := by
      norm_num [colorNormAt, weeklyNorm, rampSamples, lastSundayOf,
        VSample.norm, normalizeByPmmv, ratMean, List.filterMap_cons,
        List.filterMap_nil]
    have h20 : colorNormAt (some rampSamples) 20 = some 3 := by
      norm_num [colorNormAt, weeklyNorm, rampSamples, lastSundayOf,
        VSample.norm, normalizeByPmmv, ratMean, List.filterMap_cons,
        List.filterMap_nil]
    have h27 : colorNormAt (some rampSamples) 27 = some 4 := by
      norm_num [colorNormAt, weeklyNorm, rampSamples, lastSundayOf,
        VSample.norm, normalizeByPmmv, ratMean, List.filterMap_cons,
        List.filterMap_nil]
    have h34 : colorNormAt (some rampSamples) 34 = some 5 := by
      norm_num [colorNormAt, weeklyNorm, rampSamples, lastSundayOf,
        VSample.norm, normalizeByPmmv, ratMean, List.filterMap_cons,
        List.filterMap_nil]
    have hmin : listMin [(1 : ℚ), 2, 3, 4, 5] = 1 := by
      norm_num [listMin, min_def]
    have hmax : listMax [(1 : ℚ), 2, 3, 4, 5] = 5 := by
      norm_num [listMax, max_def]
    have hc1 : cutLabel 1 5 5 1 = some 1 := by
      norm_num [cutLabel, firstBinAux, List.range_succ]
    have hc2 : cutLabel 1 5 5 2 = some 2 := by
      norm_num [cutLabel, firstBinAux, List.range_succ]
    have hc3 : cutLabel 1 5 5 3 = some 3 := by
      norm_num [cutLabel, firstBinAux, List.range_succ]
    have hc4 : cutLabel 1 5 5 4 = some 4 := by
      norm_num [cutLabel, firstBinAux, List.range_succ]
    have hc5 : cutLabel 1 5 5 5 = some 5 := by
      norm_num [cutLabel, firstBinAux, List.range_succ]
    simp only [getColorTs, hd, List.map_cons, List.map_nil, h6, h13, h20,
      h27, h34, List.filterMap_cons, List.filterMap_nil, getNBins, id]
    norm_num [hmin, hmax, hc1, hc2, hc3, hc4, hc5]
    exact ⟨by decide, by decide, by decide, by decide, by decide⟩
  · intro ds de now p hp
    have hb : getNBins ((colorDates ds de now).map (colorNormAt none))
        = none := by
      simp only [getNBins, List.filterMap_map, Function.id_comp,
        colorNorm_none_filterMap]
      norm_num
    simp only [getColorTs, hb] at hp
    obtain ⟨d, _, rfl⟩ := List.mem_map.mp hp
    rfl
  · intro vs ds de now hcount p hp
    have hb : getNBins ((colorDates ds de now).map (colorNormAt (some vs)))
        = some 1 := by
      simp only [getNBins, List.filterMap_map, Function.id_comp, hcount]
      norm_num
    simp only [getColorTs, hb] at hp
    obtain ⟨d, _, rfl⟩ := List.mem_map.mp hp
    rfl
  · intro mn mx v1 v2 n k1 k2 hv h1 h2
    exact cutLabel_mono mn mx n v1 v2 k1 k2 hv h1 h2

/-- Witness for c4_color_ts_severity: a site with exactly one dated, defined
ratio in the window has every target week — the dated one included — mapped
to severity "1". -/
theorem c4_color_ts_severity_witness :
    ∀ p ∈ getColorTs (some [lonelySample]) (some 6) (some 34) 0,
      p.2 = "1" :=
  c4_color_ts_severity.2.2.1 [lonelySample] (some 6) (some 34) 0 (by
    have hd : colorDates (some 6) (some 34) 0 = [6, 13, 20, 27, 34] := by
      decide
    rw [hd]
    norm_num [colorNormAt, weeklyNorm, lonelySample, lastSundayOf,
      VSample.norm, normalizeByPmmv, ratMean, List.filterMap_cons,
      List.filterMap_nil])
